import Mathlib

/-
Verification of the text-humanization / voice-transformation engine of the
SOP-generation tool.

The engine lives in src/human.py (TextTransformationTools.apply_contractions,
apply_idioms, transform_voice) and src/tools.py (SOPGenerationTools.humanize_text
and the contraction and idiom tables built in SOPGenerationTools.__init__).

The Python substitutions are re.sub(r'\b' + formal + r'\b', replacement, text,
flags=re.IGNORECASE).  Every table key starts and ends with a word character,
so the leading boundary reduces to "previous char is not a word char" and the
trailing boundary to "next char is absent or not a word char".  Characters are
modelled at ASCII granularity (the tables and all inputs of interest are
ASCII): Python \w = [A-Za-z0-9_], Python \s = [ \t\n\r\v\f].
-/

def isWordChar (c : Char) : Bool :=
  c.isAlpha || c.isDigit || c == '_'

def isSpaceChar (c : Char) : Bool :=
  c == ' ' || c == '\t' || c == '\n' || c == '\r' || c == '\x0b' || c == '\x0c'

def isClassChar (c : Char) : Bool :=
  isWordChar c || isSpaceChar c

/-- Case-insensitive character equality, modelling re.IGNORECASE on ASCII. -/
def ciEq (a b : Char) : Bool :=
  a.toLower == b.toLower

/-- Case-insensitive prefix match of a literal pattern against text. -/
def matchCI : List Char → List Char → Bool
  | [], _ => true
  | _ :: _, [] => false
  | p :: ps, c :: cs => ciEq p c && matchCI ps cs

/-- Word boundary after a match of pat at the head of s: the char following
the matched span must be absent or a non-word char. -/
def boundaryOk (pat s : List Char) : Bool :=
  match s.drop pat.length with
  | [] => true
  | d :: _ => !isWordChar d

/-- Whether the bounded pattern matches at the head of s, where prevW records
whether the char just before s is a word char.  Table keys start and end with
word characters, so the leading boundary is exactly that prevW is false. -/
def headMatch (pat : List Char) (prevW : Bool) (s : List Char) : Bool :=
  !prevW && !pat.isEmpty && matchCI pat s && boundaryOk pat s

/-- Scanner for re.sub on the original text: leftmost, non-overlapping
matches, each replaced by rep.  The counter n records matched characters
still to be consumed after a replacement has been emitted; when a match is
consumed the scan resumes with prevW = true because every pattern ends in a
word character and the match is case-insensitive char-for-char. -/
def reSubAux (pat rep : List Char) : Nat → Bool → List Char → List Char
  | _, _, [] => []
  | n + 1, _, _ :: cs => reSubAux pat rep n true cs
  | 0, prevW, c :: cs =>
    if headMatch pat prevW (c :: cs) then
      rep ++ reSubAux pat rep (pat.length - 1) true cs
    else
      c :: reSubAux pat rep 0 (isWordChar c) cs

/-- One full re.sub pass over s. -/
def reSubWB (pat rep : List Char) (prevW : Bool) (s : List Char) : List Char :=
  reSubAux pat rep 0 prevW s

/-- Does a whole-phrase, case-insensitive occurrence of pat appear anywhere
in s (checking every position with its boundary context)? -/
def occursFrom (pat : List Char) : Bool → List Char → Bool
  | _, [] => false
  | prevW, c :: cs => headMatch pat prevW (c :: cs) || occursFrom pat (isWordChar c) cs

/-- String-level occurrence check for a table key. -/
def containsOcc (pat : String) (s : String) : Bool :=
  occursFrom pat.toList false s.toList

/-- One table entry applied to the text, as in the loop body of
apply_contractions and apply_idioms in src/human.py (lines 55-57, 62-64) and
humanize_text in src/tools.py (lines 292-297). -/
def applySub (formal contr : String) (text : String) : String :=
  String.mk (reSubWB formal.toList contr.toList false text.toList)

/-- TextTransformationTools.apply_contractions (src/human.py lines 53-58):
fold the substitution over the table entries in order. -/
def apply_contractions (text : String) (table : List (String × String)) : String :=
  table.foldl (fun t p => applySub p.1 p.2 t) text

/-- TextTransformationTools.apply_idioms (src/human.py lines 60-65): same
loop as apply_contractions, intended for the idiom table. -/
def apply_idioms (text : String) (table : List (String × String)) : String :=
  table.foldl (fun t p => applySub p.1 p.2 t) text

/-- The contraction table (src/human.py lines 25-40 and src/tools.py lines
48-54), in Python dict insertion order. -/
def contractions : List (String × String) :=
  [("cannot", "can't"), ("will not", "won't"), ("shall not", "shan't"),
   ("do not", "don't"), ("does not", "doesn't"), ("did not", "didn't"),
   ("is not", "isn't"), ("are not", "aren't"), ("was not", "wasn't"),
   ("have not", "haven't"), ("has not", "hasn't"),
   ("I am", "I'm"), ("you are", "you're"), ("they are", "they're")]

/-- The idiom table (src/human.py lines 42-51 and src/tools.py lines 56-61). -/
def idioms : List (String × String) :=
  [("in addition", "on top of that"), ("for example", "like"),
   ("therefore", "so"), ("however", "though"),
   ("nevertheless", "still"), ("subsequently", "then"),
   ("furthermore", "also"), ("in conclusion", "to wrap things up")]

/-- A Python value reaching humanize_text: a string or a non-string value
such as None or an int. -/
inductive PyVal where
  | pystr (s : String)
  | pynone
  | pyint (n : Int)
  deriving DecidableEq

def PyVal.isStr : PyVal → Bool
  | .pystr _ => true
  | _ => false

/-- re.sub applied to a dynamically typed value: Python raises TypeError when
the third argument is not string-like. -/
def reSubPy (formal contr : String) : PyVal → Except String PyVal
  | .pystr s => .ok (.pystr (applySub formal contr s))
  | _ => .error "TypeError"

/-- The try-block body of SOPGenerationTools.humanize_text (src/tools.py
lines 290-300): both substitution loops threaded over the same value, with
the first re.sub raising TypeError on a non-string input. -/
def humanizeBody (v : PyVal) : Except String PyVal :=
  (contractions ++ idioms).foldlM (fun acc p => reSubPy p.1 p.2 acc) v

/-- SOPGenerationTools.humanize_text (src/tools.py lines 283-304): the
except-branch logs and returns the original input value. -/
def humanize_text (v : PyVal) : PyVal :=
  match humanizeBody v with
  | .ok w => w
  | .error _ => v

/-- Python text.split('. '): scan left to right for the first occurrence of
the two-char separator, cut, continue on the remainder. -/
def splitSep : List Char → List (List Char)
  | [] => [[]]
  | [c] => [[c]]
  | c :: d :: rest =>
    if c = '.' ∧ d = ' ' then [] :: splitSep rest
    else
      match splitSep (d :: rest) with
      | [] => [[c]]
      | h :: t => (c :: h) :: t

/-- Python '. '.join. -/
def joinSep : List (List Char) → List Char
  | [] => []
  | [x] => x
  | x :: xs => x ++ '.' :: ' ' :: joinSep xs

def descRange : Nat → List Nat
  | 0 => []
  | n + 1 => (n + 1) :: descRange n

/-
re.match of the pattern (\w+)\s+([\w\s]+)\s+(\w+) used in the passive branch
of transform_voice (src/human.py line 74): anchored prefix match with
backtracking.  The first group is forced to its maximal word run (a shorter
first group leaves a word char where the following \s+ needs whitespace), and
the trailing group is greedy with nothing after it, so only the two inner
quantifier lengths are searched, longest first, exactly in engine order.
-/
def passiveMatch (s : List Char) : Option (List Char × List Char × List Char) :=
  let g1 := s.takeWhile isWordChar
  let r1 := s.dropWhile isWordChar
  if g1.isEmpty then none else
  let sp1 := r1.takeWhile isSpaceChar
  if sp1.isEmpty then none else
  (descRange sp1.length).findSome? fun t =>
    let r2 := r1.drop t
    let g2max := r2.takeWhile isClassChar
    (descRange g2max.length).findSome? fun e =>
      let g2 := r2.take e
      let r3 := r2.drop e
      let sp2 := r3.takeWhile isSpaceChar
      (descRange sp2.length).findSome? fun u =>
        let r4 := r3.drop u
        let g3 := r4.takeWhile isWordChar
        if g3.isEmpty then none else some (g1, g2, g3)

/-
re.match of (\w+)\s+was\s+(\w+)\s+by\s+(\w+) used in the active branch
(src/human.py line 80).  Here no backtracking can succeed where the greedy
choice fails: shortening any \w+ leaves a word char facing \s+ or a literal,
and shortening any \s+ leaves a space facing a word char or literal, so every
quantifier is forced to its maximal run.
-/
def activeMatch (s : List Char) : Option (List Char × List Char × List Char) :=
  let g1 := s.takeWhile isWordChar
  let r1 := s.dropWhile isWordChar
  if g1.isEmpty then none else
  let sp1 := r1.takeWhile isSpaceChar
  let r2 := r1.dropWhile isSpaceChar
  if sp1.isEmpty then none else
  match r2 with
  | 'w' :: 'a' :: 's' :: r3 =>
    let sp2 := r3.takeWhile isSpaceChar
    let r4 := r3.dropWhile isSpaceChar
    if sp2.isEmpty then none else
    let g2 := r4.takeWhile isWordChar
    let r5 := r4.dropWhile isWordChar
    if g2.isEmpty then none else
    let sp3 := r5.takeWhile isSpaceChar
    let r6 := r5.dropWhile isSpaceChar
    if sp3.isEmpty then none else
    match r6 with
    | 'b' :: 'y' :: r7 =>
      let sp4 := r7.takeWhile isSpaceChar
      let r8 := r7.dropWhile isSpaceChar
      if sp4.isEmpty then none else
      let g3 := r8.takeWhile isWordChar
      if g3.isEmpty then none else some (g1, g2, g3)
    | _ => none
  | _ => none

/-- Passive branch per chunk (src/human.py lines 73-78): on a match, rebuild
from the three capture groups only. -/
def passiveChunk (c : List Char) : List Char :=
  match passiveMatch c with
  | some (g1, g2, g3) => g3 ++ (" was ").toList ++ g2 ++ (" by ").toList ++ g1
  | none => c

/-- Non-passive branch per chunk (src/human.py lines 79-84). -/
def activeChunk (c : List Char) : List Char :=
  match activeMatch c with
  | some (g1, g2, g3) => g3 ++ ' ' :: (g2 ++ ' ' :: g1)
  | none => c

/-- TextTransformationTools.transform_voice (src/human.py lines 67-86):
split on the literal separator, transform each chunk according to
target_voice, rejoin.  Every target_voice other than passive falls into the
else branch, which applies the active transform. -/
def transformVoiceCore (text : List Char) (target_voice : String) : List Char :=
  joinSep ((splitSep text).map
    (fun s => if target_voice = "passive" then passiveChunk s else activeChunk s))

def transform_voice (text target_voice : String) : String :=
  String.mk (transformVoiceCore text.toList target_voice)

/- ------------------------------------------------------------------ -/
/- Decidable notions used to prove that the contraction pass and the   -/
/- idiom pass commute.                                                 -/
/- ------------------------------------------------------------------ -/

/-- matchCI together with the trailing word boundary. -/
def prefixCmp (q s : List Char) : Bool :=
  matchCI q s && boundaryOk q s

/-- Conservative check whether the bounded pattern q could match at the head
of cont ++ X for some continuation X whose first char is absent or a
non-word char (deeper chars of X unknown, so a pattern space reaching past
cont is conservatively allowed). -/
def couldMatchPat : List Char → List Char → Bool
  | [], [] => true
  | [], d :: _ => !isWordChar d
  | a :: _, [] => !isWordChar a
  | a :: as, d :: ds => ciEq a d && couldMatchPat as ds

/-- Along cont, at every position where a bounded match could start (the
previous char is not a word char), q cannot match, whatever follows cont. -/
def skipOKb (q : List Char) : Bool → List Char → Bool
  | _, [] => true
  | prevW, c :: cs => (prevW || !couldMatchPat q (c :: cs)) && skipOKb q (isWordChar c) cs

/-- Pointwise case-insensitive equality of equal-length lists. -/
def ciList : List Char → List Char → Bool
  | [], [] => true
  | a :: as, b :: bs => ciEq a b && ciList as bs
  | _, _ => false

/-- Wordness of the last char (the initial flag for an empty list). -/
def endW : Bool → List Char → Bool
  | p, [] => p
  | _, c :: cs => endW (isWordChar c) cs

def headW : List Char → Bool
  | [] => false
  | c :: _ => isWordChar c

/-- The head of the list is absent or a non-word char. -/
def nonWordHead : List Char → Bool
  | [] => true
  | c :: _ => !isWordChar c

/-- Decidable independence of two pattern-replacement pairs: no suffix of
either pattern can match inside the other pattern or inside the other
replacement, and neither full pattern can match at any boundary position of
the other pattern or replacement. -/
def indepPair (p1 r1 p2 r2 : List Char) : Bool :=
  !p1.isEmpty && !p2.isEmpty && !r1.isEmpty && !r2.isEmpty &&
  headW p1 && headW p2 && headW r1 && headW r2 &&
  endW false p1 && endW false p2 && endW false r1 && endW false r2 &&
  (p2.tails.all fun q => !couldMatchPat q p1 && !couldMatchPat q r1) &&
  (p1.tails.all fun q => !couldMatchPat q p2 && !couldMatchPat q r2) &&
  skipOKb p2 false p1 && skipOKb p2 false r1 &&
  skipOKb p1 false p2 && skipOKb p1 false r2

/- ------------------------------------------------------------------ -/
/- Basic lemmas about the substitution scanner.                        -/
/- ------------------------------------------------------------------ -/

theorem reSubAux_skip (pat rep : List Char) :
    ∀ cs n, reSubAux pat rep n true cs = reSubWB pat rep true (cs.drop n) := by
  intro cs
  induction cs with
  | nil => intro n; cases n <;> simp [reSubAux, reSubWB]
  | cons c cs ih =>
    intro n
    cases n with
    | zero => simp [reSubWB]
    | succ m => simpa [reSubAux] using ih m

theorem reSubWB_nil (pat rep : List Char) (prevW : Bool) :
    reSubWB pat rep prevW [] = [] := rfl

theorem reSubWB_cons (pat rep : List Char) (prevW : Bool) (c : Char) (cs : List Char) :
    reSubWB pat rep prevW (c :: cs) =
      if headMatch pat prevW (c :: cs) then
        rep ++ reSubWB pat rep true (cs.drop (pat.length - 1))
      else
        c :: reSubWB pat rep (isWordChar c) cs := by
  by_cases h : headMatch pat prevW (c :: cs) = true
  · rw [if_pos h]
    show reSubAux pat rep 0 prevW (c :: cs) = _
    simp only [reSubAux, h, if_true]
    rw [reSubAux_skip]
  · rw [if_neg h]
    show reSubAux pat rep 0 prevW (c :: cs) = _
    simp only [reSubAux, h, if_false]
    rfl

/-- A pass over text containing no occurrence of the pattern is the
identity. -/
theorem noOcc_reSub_id (pat rep : List Char) :
    ∀ s prevW, occursFrom pat prevW s = false → reSubWB pat rep prevW s = s
  | [], _, _ => rfl
  | c :: cs, prevW, h => by
    rw [occursFrom, Bool.or_eq_false_iff] at h
    rw [reSubWB_cons, if_neg (by simp [h.1]), noOcc_reSub_id pat rep cs (isWordChar c) h.2]

theorem applySub_id (p r : String) (s : String) (h : containsOcc p s = false) :
    applySub p r s = s := by
  unfold containsOcc at h
  unfold applySub
  rw [noOcc_reSub_id _ _ _ _ h]
  rfl

/-- A whole table pass over text containing no occurrence of any key is the
identity. -/
theorem apply_table_id :
    ∀ (T : List (String × String)) (s : String),
      (∀ p ∈ T, containsOcc p.1 s = false) → apply_contractions s T = s
  | [], _, _ => rfl
  | p :: ps, s, h => by
    have h1 : applySub p.1 p.2 s = s := applySub_id _ _ _ (h p (by simp))
    have h2 := apply_table_id ps s (fun q hq => h q (by simp [hq]))
    unfold apply_contractions at h2 ⊢
    simpa [h1] using h2

theorem apply_idioms_eq_contractions_fn :
    apply_idioms = apply_contractions := rfl

/- ------------------------------------------------------------------ -/
/- Lemmas about humanize_text.                                         -/
/- ------------------------------------------------------------------ -/

theorem foldlM_pystr :
    ∀ (T : List (String × String)) (s : String),
      T.foldlM (fun acc p => reSubPy p.1 p.2 acc) (PyVal.pystr s) =
        .ok (.pystr (T.foldl (fun t p => applySub p.1 p.2 t) s))
  | [], s => rfl
  | p :: ps, s => by
    simp only [List.foldlM, List.foldl]
    rw [show reSubPy p.1 p.2 (PyVal.pystr s) = .ok (.pystr (applySub p.1 p.2 s)) from rfl]
    simpa using foldlM_pystr ps (applySub p.1 p.2 s)

theorem humanizeBody_str (s : String) :
    humanizeBody (.pystr s) =
      .ok (.pystr (apply_idioms (apply_contractions s contractions) idioms)) := by
  unfold humanizeBody
  rw [foldlM_pystr, List.foldl_append]
  rfl

theorem humanizeBody_nonstr (v : PyVal) (h : v.isStr = false) :
    humanizeBody v = .error "TypeError" := by
  cases v with
  | pystr s => simp [PyVal.isStr] at h
  | pynone => rfl
  | pyint n => rfl

/- ------------------------------------------------------------------ -/
/- Lemmas about splitting, joining and the active-voice matcher.       -/
/- ------------------------------------------------------------------ -/

theorem splitSep_no_dot : ∀ s : List Char, (∀ c ∈ s, c ≠ '.') → splitSep s = [s]
  | [], _ => rfl
  | [c], _ => rfl
  | c :: d :: rest, h => by
    have hc : c ≠ '.' := h c (by simp)
    rw [splitSep, if_neg (fun hcd => hc hcd.1),
      splitSep_no_dot (d :: rest) (fun x hx => h x (by simp at hx ⊢; tauto))]

theorem joinSep_single (x : List Char) : joinSep [x] = x := rfl

theorem takeWhile_append_stop (p : Char → Bool) :
    ∀ (xs : List Char) (y : Char) (ys : List Char),
      (∀ c ∈ xs, p c = true) → p y = false →
      (xs ++ y :: ys).takeWhile p = xs
  | [], y, ys, _, hy => by simp [List.takeWhile, hy]
  | x :: xs, y, ys, h, hy => by
    simp only [List.cons_append, List.takeWhile, h x (by simp), List.cons.injEq, true_and]
    exact takeWhile_append_stop p xs y ys (fun c hc => h c (by simp [hc])) hy

theorem dropWhile_append_stop (p : Char → Bool) :
    ∀ (xs : List Char) (y : Char) (ys : List Char),
      (∀ c ∈ xs, p c = true) → p y = false →
      (xs ++ y :: ys).dropWhile p = y :: ys
  | [], y, ys, _, hy => by simp [List.dropWhile, hy]
  | x :: xs, y, ys, h, hy => by
    simp only [List.cons_append, List.dropWhile, h x (by simp)]
    exact dropWhile_append_stop p xs y ys (fun c hc => h c (by simp [hc])) hy

theorem takeWhile_all (p : Char → Bool) :
    ∀ (xs : List Char), (∀ c ∈ xs, p c = true) → xs.takeWhile p = xs
  | [], _ => rfl
  | x :: xs, h => by
    simp only [List.takeWhile, h x (by simp), List.cons.injEq, true_and]
    exact takeWhile_all p xs (fun c hc => h c (by simp [hc]))

theorem space_not_word (c : Char) (h : isSpaceChar c = true) : isWordChar c = false := by
  unfold isSpaceChar at h
  simp only [Bool.or_eq_true, beq_iff_eq] at h
  rcases h with ((((h | h) | h) | h) | h) | h <;> subst h <;> decide

theorem word_not_space (c : Char) (h : isWordChar c = true) : isSpaceChar c = false := by
  cases hsp : isSpaceChar c
  · rfl
  · have hw := space_not_word c hsp
    rw [h] at hw
    exact absurd hw (by decide)

theorem word_not_dot (c : Char) (h : isWordChar c = true) : c ≠ '.' := by
  intro hc
  subst hc
  simp [isWordChar, Char.isAlpha, Char.isUpper, Char.isLower, Char.isDigit] at h

/-- The active matcher on a chunk of the exact shape object-was-verb-by-subject
followed by an arbitrary non-word-leading remainder with the three captured
words returned and the remainder ignored. -/
theorem activeMatch_shaped (o v s t : List Char)
    (ho : o ≠ []) (hv : v ≠ []) (hs : s ≠ [])
    (hwo : ∀ c ∈ o, isWordChar c = true)
    (hwv : ∀ c ∈ v, isWordChar c = true)
    (hws : ∀ c ∈ s, isWordChar c = true)
    (hth : ∀ c, t.head? = some c → isWordChar c = false) :
    activeMatch (o ++ ' ' :: 'w' :: 'a' :: 's' :: ' ' ::
      (v ++ ' ' :: 'b' :: 'y' :: ' ' :: (s ++ t))) = some (o, v, s) := by
  have e0 : isWordChar ' ' = false := by decide
  have e1 : isSpaceChar ' ' = true := by decide
  have e2 : isSpaceChar 'w' = false := by decide
  have e3 : isSpaceChar 'b' = false := by decide
  have tw1 := takeWhile_append_stop isWordChar o ' '
    ('w' :: 'a' :: 's' :: ' ' :: (v ++ ' ' :: 'b' :: 'y' :: ' ' :: (s ++ t))) hwo e0
  have dw1 := dropWhile_append_stop isWordChar o ' '
    ('w' :: 'a' :: 's' :: ' ' :: (v ++ ' ' :: 'b' :: 'y' :: ' ' :: (s ++ t))) hwo e0
  have tw2 := takeWhile_append_stop isWordChar v ' '
    ('b' :: 'y' :: ' ' :: (s ++ t)) hwv e0
  have dw2 := dropWhile_append_stop isWordChar v ' '
    ('b' :: 'y' :: ' ' :: (s ++ t)) hwv e0
  have tw3 : (s ++ t).takeWhile isWordChar = s := by
    cases t with
    | nil => simpa using takeWhile_all isWordChar s hws
    | cons tc tcs =>
      exact takeWhile_append_stop isWordChar s tc tcs hws (hth tc rfl)
  have hoE : o.isEmpty = false := by cases o with | nil => exact absurd rfl ho | cons a l => rfl
  have hvE : v.isEmpty = false := by cases v with | nil => exact absurd rfl hv | cons a l => rfl
  have hsE : s.isEmpty = false := by cases s with | nil => exact absurd rfl hs | cons a l => rfl
  have htsv : ∀ X : List Char, List.takeWhile isSpaceChar (v ++ X) = [] := by
    intro X
    cases v with
    | nil => exact absurd rfl hv
    | cons a l =>
      simp [List.takeWhile_cons, word_not_space a (hwv a (by simp))]
  have hdsv : ∀ X : List Char, List.dropWhile isSpaceChar (v ++ X) = v ++ X := by
    intro X
    cases v with
    | nil => exact absurd rfl hv
    | cons a l =>
      simp [List.dropWhile_cons, word_not_space a (hwv a (by simp))]
  have htss : List.takeWhile isSpaceChar (s ++ t) = [] := by
    cases s with
    | nil => exact absurd rfl hs
    | cons a l =>
      simp [List.takeWhile_cons, word_not_space a (hws a (by simp))]
  have hdss : List.dropWhile isSpaceChar (s ++ t) = s ++ t := by
    cases s with
    | nil => exact absurd rfl hs
    | cons a l =>
      simp [List.dropWhile_cons, word_not_space a (hws a (by simp))]
  unfold activeMatch
  simp [tw1, dw1, tw2, dw2, tw3, htsv, hdsv, htss, hdss, hoE, hvE, hsE,
    e1, e2, e3, List.takeWhile_cons, List.dropWhile_cons]

/- ------------------------------------------------------------------ -/
/- Claim theorems.                                                     -/
/- ------------------------------------------------------------------ -/

/-- C1 counterexample: humanize_text applied to the non-string value None
catches the internal TypeError and returns None itself, which is not a
string, refuting that the call always returns a string. -/
theorem c1_counterexample :
    humanize_text PyVal.pynone = PyVal.pynone ∧
    (humanize_text PyVal.pynone).isStr = false :=
  ⟨rfl, rfl⟩

/-- C1 (amended): humanize_text never propagates a fault to the caller.  On a
string input it returns the contracted-and-idiom-substituted string; on a
non-string input the first re.sub raises TypeError inside the try block, the
handler masks it, and the original (non-string) input value is returned
untransformed. -/
theorem c1_humanize_fail_open_amended (v : PyVal) :
    (∃ s, v = PyVal.pystr s ∧
      humanize_text v =
        PyVal.pystr (apply_idioms (apply_contractions s contractions) idioms))
    ∨ (humanize_text v = v ∧ v.isStr = false ∧
        humanizeBody v = Except.error "TypeError") := by
  cases v with
  | pystr s =>
    left
    refine ⟨s, rfl, ?_⟩
    unfold humanize_text
    rw [humanizeBody_str]
  | pynone => right; exact ⟨rfl, rfl, rfl⟩
  | pyint n =>
    right
    refine ⟨?_, rfl, humanizeBody_nonstr (PyVal.pyint n) rfl⟩
    unfold humanize_text
    rw [humanizeBody_nonstr (PyVal.pyint n) rfl]

/-- C2 counterexample: with the unsupported target voice imperative the code
falls into the else branch and applies the active-voice rewrite, so the input
is not returned unchanged. -/
theorem c2_counterexample :
    transform_voice ("cat was chased by dog") ("imperative") = "dog chased cat" ∧
    ("dog chased cat" : String) ≠ "cat was chased by dog" :=
  ⟨by decide, by decide⟩

/-- C2 (amended): for every target voice other than passive, including
unsupported values such as imperative, transform_voice behaves exactly as for
the target active (the else branch); no fault is raised, but text matching
the active pattern is transformed rather than returned unchanged. -/
theorem c2_invalid_voice_amended (text tv : String) (h : tv ≠ "passive") :
    transform_voice text tv = transform_voice text "active" := by
  unfold transform_voice transformVoiceCore
  have ha : ¬(("active" : String) = "passive") := by decide
  simp [h, ha]

/-- C2 witness: the amended theorem applied at the pair used by the spec. -/
theorem c2_invalid_voice_amended_witness :
    ("imperative" : String) ≠ "passive" ∧
    transform_voice ("The dog chased the cat") ("imperative") =
      transform_voice ("The dog chased the cat") ("active") :=
  ⟨by decide, c2_invalid_voice_amended _ _ (by decide)⟩

/-- C3 counterexample: the passive rewrite of the five-word sentence captures
the three middle words as one group and produces a different string than the
claim asserts. -/
theorem c3_counterexample :
    transform_voice ("The dog chased the cat") ("passive") =
      "cat was dog chased the by The" ∧
    ("cat was dog chased the by The" : String) ≠ "The cat was chased by the dog" :=
  ⟨by decide, by decide⟩

/-- C3 (amended): what the code actually produces on the two spec examples:
the passive rewrite regroups the sentence as object=cat, verb
phrase=dog chased the, subject=The; the active pattern does not match a
sentence starting with a two-word noun phrase, so that input passes through
unchanged. -/
theorem c3_voice_examples_amended :
    transform_voice ("The dog chased the cat") ("passive") =
      "cat was dog chased the by The" ∧
    transform_voice ("The cat was chased by the dog") ("active") =
      "The cat was chased by the dog" :=
  ⟨by decide, by decide⟩

/-- C4 counterexample: a chunk with a multi-word verb phrase between was and
by is of the shape the claim says is rewritten, but the code requires a
single verb word and leaves the chunk unchanged. -/
theorem c4_counterexample :
    transform_voice ("cat was being chased by dog") ("active") =
      "cat was being chased by dog" ∧
    ("cat was being chased by dog" : String) ≠ "dog being chased cat" :=
  ⟨by decide, by decide⟩

/-- C4 (amended): for targetVoice = active the text is split on the literal
separator; every chunk whose prefix is one object word, whitespace, was,
whitespace, exactly one verb word, whitespace, by, whitespace, one subject
word is rewritten to subject verb object built from the three captured words
only (any trailing remainder of the chunk is dropped), and every chunk on
which the anchored pattern fails is passed through unchanged. -/
theorem c4_active_transform_amended :
    (∀ o v s t : List Char, o ≠ [] → v ≠ [] → s ≠ [] →
      (∀ c ∈ o, isWordChar c = true) → (∀ c ∈ v, isWordChar c = true) →
      (∀ c ∈ s, isWordChar c = true) →
      (∀ c ∈ t, c ≠ '.') → (∀ c, t.head? = some c → isWordChar c = false) →
      transformVoiceCore (o ++ ' ' :: 'w' :: 'a' :: 's' :: ' ' ::
        (v ++ ' ' :: 'b' :: 'y' :: ' ' :: (s ++ t))) ("active") =
        s ++ ' ' :: (v ++ ' ' :: o))
    ∧ (∀ chunk : List Char, (∀ c ∈ chunk, c ≠ '.') → activeMatch chunk = none →
        transformVoiceCore chunk ("active") = chunk) := by
  constructor
  · intro o v s t ho hv hs hwo hwv hws htd hth
    have hnd : ∀ c ∈ (o ++ ' ' :: 'w' :: 'a' :: 's' :: ' ' ::
        (v ++ ' ' :: 'b' :: 'y' :: ' ' :: (s ++ t))), c ≠ '.' := by
      intro c hc
      simp only [List.mem_append, List.mem_cons] at hc
      rcases hc with hc | hc
      · exact word_not_dot c (hwo c hc)
      · rcases hc with hc | hc | hc | hc | hc
        · subst hc; decide
        · subst hc; decide
        · subst hc; decide
        · subst hc; decide
        · rcases hc with hc | hc
          · subst hc; decide
          · rcases hc with hc | hc
            · exact word_not_dot c (hwv c hc)
            · rcases hc with hc | hc | hc | hc
              · subst hc; decide
              · subst hc; decide
              · subst hc; decide
              · rcases hc with hc | hc | hc
                · subst hc; decide
                · exact word_not_dot c (hws c hc)
                · exact htd c hc
    unfold transformVoiceCore
    rw [splitSep_no_dot _ hnd]
    simp only [List.map_cons, List.map_nil]
    rw [if_neg (by decide : ¬(("active" : String) = "passive"))]
    rw [joinSep_single]
    unfold activeChunk
    rw [activeMatch_shaped o v s t ho hv hs hwo hwv hws hth]
  · intro chunk hnd hm
    unfold transformVoiceCore
    rw [splitSep_no_dot _ hnd]
    simp only [List.map_cons, List.map_nil]
    rw [if_neg (by decide : ¬(("active" : String) = "passive"))]
    rw [joinSep_single]
    unfold activeChunk
    rw [hm]

/-- C4 witness: the amended rewrite at a concrete chunk with a trailing
exclamation mark, which is dropped from the output. -/
theorem c4_active_transform_amended_witness :
    transformVoiceCore (("cat").toList ++ ' ' :: 'w' :: 'a' :: 's' :: ' ' ::
      (("chased").toList ++ ' ' :: 'b' :: 'y' :: ' ' ::
        (("dog").toList ++ ("!").toList))) ("active") =
      ("dog").toList ++ ' ' :: (("chased").toList ++ ' ' :: ("cat").toList) :=
  c4_active_transform_amended.1 _ _ _ _ (by decide) (by decide) (by decide)
    (by decide) (by decide) (by decide) (by decide) (by decide)

/-- C5: whole-phrase matching with word boundaries: the word cannotation is
left unchanged, and any string containing no whole-phrase case-insensitive
occurrence of any contraction key is returned unchanged by
apply_contractions. -/
theorem c5_whole_phrase_matching :
    apply_contractions ("cannotation is a word") contractions =
      "cannotation is a word" ∧
    (∀ s : String, (∀ p ∈ contractions, containsOcc p.1 s = false) →
      apply_contractions s contractions = s) :=
  ⟨by decide, fun s h => apply_table_id contractions s h⟩

/-- C5 witness: the universal part applied to a concrete key-free string. -/
theorem c5_whole_phrase_matching_witness :
    (∀ p ∈ contractions, containsOcc p.1 ("hello world") = false) ∧
    apply_contractions ("hello world") contractions = "hello world" :=
  ⟨by decide, c5_whole_phrase_matching.2 _ (by decide)⟩

/-- C6: apply_contractions is idempotent on inputs with no nested formal
phrases, formalised as the design assumption stated by the spec: after one
application no table key occurs in the result, so a second application is the
identity. -/
theorem c6_contractions_idempotent (s : String)
    (h : ∀ p ∈ contractions,
      containsOcc p.1 (apply_contractions s contractions) = false) :
    apply_contractions (apply_contractions s contractions) contractions =
      apply_contractions s contractions :=
  apply_table_id contractions _ h

/-- C6 witness: idempotence at a concrete input that is contracted once. -/
theorem c6_contractions_idempotent_witness :
    (∀ p ∈ contractions,
      containsOcc p.1 (apply_contractions ("I cannot do it") contractions) = false) ∧
    apply_contractions (apply_contractions ("I cannot do it") contractions) contractions =
      apply_contractions ("I cannot do it") contractions :=
  ⟨by decide, c6_contractions_idempotent _ (by decide)⟩

/-- C7 counterexample: applying the table with the entry you are moved to the
front is a permutation of the table, yet on the input you are not it yields
you're not while definition order yields you aren't: occurrences of the keys
you are and are not overlap, so order changes the result. -/
theorem c7_counterexample :
    (("you are", "you're") :: contractions.erase ("you are", "you're")).Perm
      contractions ∧
    apply_contractions ("you are not")
      (("you are", "you're") :: contractions.erase ("you are", "you're")) =
      "you're not" ∧
    apply_contractions ("you are not") contractions = "you aren't" ∧
    ("you're not" : String) ≠ "you aren't" :=
  ⟨by decide, by decide, by decide, by decide⟩

/-- C7 (amended): order independence fails in general (keys can overlap, as
in you are not), but holds on inputs in which no table key occurs at all:
there every permutation of the table returns the input unchanged. -/
theorem c7_order_amended (T : List (String × String)) (s : String)
    (hp : T.Perm contractions)
    (h : ∀ p ∈ contractions, containsOcc p.1 s = false) :
    apply_contractions s T = apply_contractions s contractions := by
  rw [apply_table_id contractions s h,
    apply_table_id T s (fun p hmem => h p (hp.mem_iff.mp hmem))]

/-- C7 witness: the amended theorem at the reversed table and a key-free
input. -/
theorem c7_order_amended_witness :
    contractions.reverse.Perm contractions ∧
    apply_contractions ("plain text") contractions.reverse =
      apply_contractions ("plain text") contractions :=
  ⟨by decide, c7_order_amended _ _ (by decide) (by decide)⟩

/-- C9: the end-to-end humanize example from the spec, character for
character: cannot folds to can't, are not to aren't, and In addition is
replaced case-insensitively by the lowercase idiom on top of that. -/
theorem c9_humanize_example :
    humanize_text (PyVal.pystr
      ("I cannot believe that you are not coming. In addition, the team completed the task.")) =
      PyVal.pystr
        ("I can't believe that you aren't coming. on top of that, the team completed the task.") := by
  decide

/-- C10: a passive-branch chunk that matches the anchored pattern is rebuilt
from the three capture groups only, so characters of the chunk after the last
captured word are deleted: concretely, the trailing period of the chunk
The team completed the task. does not occur in the output. -/
theorem c10_passive_drops_trailing :
    (∀ chunk g1 g2 g3 : List Char, passiveMatch chunk = some (g1, g2, g3) →
      passiveChunk chunk =
        g3 ++ (" was ").toList ++ g2 ++ (" by ").toList ++ g1)
    ∧ transform_voice ("The team completed the task.") ("passive") =
        "task was team completed the by The"
    ∧ '.' ∉ ("task was team completed the by The").toList := by
  refine ⟨?_, by decide, by decide⟩
  intro chunk g1 g2 g3 h
  unfold passiveChunk
  rw [h]

/-- C10 witness: the capture-group rewrite at a concrete matched chunk with a
trailing exclamation mark. -/
theorem c10_passive_drops_trailing_witness :
    passiveMatch (("He was pushed by her!").toList) =
      some (("He").toList, ("was pushed by").toList, ("her").toList) ∧
    passiveChunk (("He was pushed by her!").toList) =
      ("her").toList ++ (" was ").toList ++ ("was pushed by").toList ++
        (" by ").toList ++ ("He").toList :=
  ⟨by decide, c10_passive_drops_trailing.1 _ _ _ _ (by decide)⟩

/- ------------------------------------------------------------------ -/
/- Commutation of the contraction pass and the idiom pass (claim C8).  -/
/- Character-level facts first: case-insensitive equality preserves    -/
/- membership in the word class.                                       -/
/- ------------------------------------------------------------------ -/

theorem uint32_le_iff (a b : UInt32) : (a ≤ b) ↔ a.toNat ≤ b.toNat := by
  simp [UInt32.le_def, BitVec.le_def, UInt32.toNat]

theorem char_ofNat_toNat (n : Nat) (h : n < 55296) : (Char.ofNat n).toNat = n := by
  unfold Char.ofNat
  rw [dif_pos (Or.inl h)]
  rfl

theorem char_isWordChar_iff (c : Char) :
    isWordChar c = true ↔
      ((65 ≤ c.toNat ∧ c.toNat ≤ 90) ∨ (97 ≤ c.toNat ∧ c.toNat ≤ 122) ∨
       (48 ≤ c.toNat ∧ c.toNat ≤ 57) ∨ c.toNat = 95) := by
  have h95 : (c == '_') = true ↔ c.toNat = 95 := by
    constructor
    · intro h
      have hc : c = '_' := beq_iff_eq.mp h
      subst hc; rfl
    · intro h
      have hc : c = '_' := Char.eq_of_val_eq (UInt32.toNat.inj (by simpa using h))
      subst hc; rfl
  unfold isWordChar Char.isAlpha Char.isUpper Char.isLower Char.isDigit
  simp only [Bool.or_eq_true, decide_eq_true_eq, Bool.and_eq_true, ge_iff_le]
  rw [h95]
  constructor
  · rintro (((⟨h1, h2⟩ | ⟨h1, h2⟩) | ⟨h1, h2⟩) | h)
    · exact Or.inl ⟨(uint32_le_iff _ _).mp h1, (uint32_le_iff _ _).mp h2⟩
    · exact Or.inr (Or.inl ⟨(uint32_le_iff _ _).mp h1, (uint32_le_iff _ _).mp h2⟩)
    · exact Or.inr (Or.inr (Or.inl ⟨(uint32_le_iff _ _).mp h1, (uint32_le_iff _ _).mp h2⟩))
    · exact Or.inr (Or.inr (Or.inr h))
  · rintro (⟨h1, h2⟩ | ⟨h1, h2⟩ | ⟨h1, h2⟩ | h)
    · exact Or.inl (Or.inl (Or.inl ⟨(uint32_le_iff _ _).mpr h1, (uint32_le_iff _ _).mpr h2⟩))
    · exact Or.inl (Or.inl (Or.inr ⟨(uint32_le_iff _ _).mpr h1, (uint32_le_iff _ _).mpr h2⟩))
    · exact Or.inl (Or.inr ⟨(uint32_le_iff _ _).mpr h1, (uint32_le_iff _ _).mpr h2⟩)
    · exact Or.inr h

theorem char_toLower_toNat (c : Char) :
    (c.toLower).toNat = if 65 ≤ c.toNat ∧ c.toNat ≤ 90 then c.toNat + 32 else c.toNat := by
  unfold Char.toLower
  by_cases h : 65 ≤ c.toNat ∧ c.toNat ≤ 90
  · rw [if_pos ⟨h.1, h.2⟩, if_pos h, char_ofNat_toNat _ (by omega)]
  · rw [if_neg (fun hc => h ⟨hc.1, hc.2⟩), if_neg h]

theorem isWordChar_toLower (c : Char) : isWordChar c.toLower = isWordChar c := by
  have h1 := char_isWordChar_iff c.toLower
  have h2 := char_isWordChar_iff c
  rw [char_toLower_toNat] at h1
  by_cases h : 65 ≤ c.toNat ∧ c.toNat ≤ 90
  · rw [if_pos h] at h1
    rw [h1.mpr (Or.inr (Or.inl (by omega))), h2.mpr (Or.inl h)]
  · rw [if_neg h] at h1
    cases hc : isWordChar c
    · cases hd : isWordChar c.toLower
      · rfl
      · exact absurd (h2.mpr (h1.mp hd)) (by simp [hc])
    · rw [h1.mpr (h2.mp hc)]

theorem ciEq_word (a b : Char) (h : ciEq a b = true) : isWordChar a = isWordChar b := by
  have e : a.toLower = b.toLower := beq_iff_eq.mp h
  rw [← isWordChar_toLower a, ← isWordChar_toLower b, e]

theorem ciEq_congr (a b x : Char) (h : ciEq a b = true) : ciEq x a = ciEq x b := by
  have e : a.toLower = b.toLower := beq_iff_eq.mp h
  simp [ciEq, e]

theorem ciEq_symm (a b : Char) : ciEq a b = ciEq b a := by
  cases h : ciEq b a
  · cases h2 : ciEq a b
    · rfl
    · rw [show ciEq b a = true from by
        have e : a.toLower = b.toLower := beq_iff_eq.mp h2
        simp [ciEq, e]] at h
      exact h
  · have e : b.toLower = a.toLower := beq_iff_eq.mp h
    simp [ciEq, e]

/- prefixCmp basics. -/

theorem prefixCmp_nil_left (X : List Char) : prefixCmp [] X = nonWordHead X := by
  cases X <;> simp [prefixCmp, matchCI, boundaryOk, nonWordHead]

theorem prefixCmp_cons (a : Char) (as : List Char) (d : Char) (rest : List Char) :
    prefixCmp (a :: as) (d :: rest) = (ciEq a d && prefixCmp as rest) := by
  simp [prefixCmp, matchCI, boundaryOk, Bool.and_assoc]

theorem prefixCmp_nil_right (q : List Char) (hq : q ≠ []) : prefixCmp q [] = false := by
  cases q with
  | nil => exact absurd rfl hq
  | cons a as => simp [prefixCmp, matchCI]

/- The central conservative-match lemma: a real bounded prefix match of q
against cont followed by any continuation with non-word head forces
couldMatchPat q cont. -/

theorem couldMatch_of_prefixCmp :
    ∀ (q cont X : List Char), nonWordHead X = true →
      prefixCmp q (cont ++ X) = true → couldMatchPat q cont = true
  | [], [], X, hX, hp => rfl
  | [], d :: ds, X, hX, hp => by
    rw [List.cons_append, prefixCmp_nil_left] at hp
    simpa [couldMatchPat, nonWordHead] using hp
  | a :: as, [], X, hX, hp => by
    rw [List.nil_append] at hp
    cases X with
    | nil => rw [prefixCmp_nil_right _ (by simp)] at hp; exact absurd hp (by simp)
    | cons d ds =>
      rw [prefixCmp_cons] at hp
      simp only [Bool.and_eq_true] at hp
      have hdw : isWordChar d = false := by simpa [nonWordHead] using hX
      have haw : isWordChar a = false := by rw [ciEq_word a d hp.1]; exact hdw
      simp [couldMatchPat, haw]
  | a :: as, d :: ds, X, hX, hp => by
    rw [List.cons_append, prefixCmp_cons] at hp
    simp only [Bool.and_eq_true] at hp
    simp only [couldMatchPat, hp.1, Bool.true_and]
    exact couldMatch_of_prefixCmp as ds X hX hp.2

theorem prefixCmp_eq_false (q cont X : List Char) (hX : nonWordHead X = true)
    (h : couldMatchPat q cont = false) : prefixCmp q (cont ++ X) = false := by
  cases hp : prefixCmp q (cont ++ X)
  · rfl
  · exact absurd (couldMatch_of_prefixCmp q cont X hX hp) (by simp [h])

/- Transfer along pointwise case-insensitive equality. -/

theorem ciList_length : ∀ m p : List Char, ciList m p = true → m.length = p.length
  | [], [], _ => rfl
  | [], _ :: _, h => by simp [ciList] at h
  | _ :: _, [], h => by simp [ciList] at h
  | a :: as, b :: bs, h => by
    simp only [ciList, Bool.and_eq_true] at h
    simp [ciList_length as bs h.2]

theorem couldMatch_transfer : ∀ (q m p : List Char), ciList m p = true →
    couldMatchPat q m = couldMatchPat q p
  | q, [], [], _ => rfl
  | q, [], _ :: _, h => by simp [ciList] at h
  | q, _ :: _, [], h => by simp [ciList] at h
  | q, a :: as, b :: bs, h => by
    simp only [ciList, Bool.and_eq_true] at h
    obtain ⟨h1, h2⟩ := h
    cases q with
    | nil => simp [couldMatchPat, ciEq_word a b h1]
    | cons x xs =>
      simp only [couldMatchPat]
      rw [ciEq_congr a b x h1, couldMatch_transfer xs as bs h2]

theorem skipOK_transfer : ∀ (q m p : List Char) (b : Bool), ciList m p = true →
    skipOKb q b m = skipOKb q b p
  | q, [], [], b, _ => rfl
  | q, [], _ :: _, _, h => by simp [ciList] at h
  | q, _ :: _, [], _, h => by simp [ciList] at h
  | q, a :: as, c :: cs, b, h => by
    have h' := h
    simp only [ciList, Bool.and_eq_true] at h'
    obtain ⟨h1, h2⟩ := h'
    simp only [skipOKb]
    rw [couldMatch_transfer q (a :: as) (c :: cs) h,
        ciEq_word a c h1, skipOK_transfer q as cs (isWordChar c) h2]

theorem endW_transfer : ∀ (m p : List Char) (b : Bool), ciList m p = true →
    endW b m = endW b p
  | [], [], _, _ => rfl
  | [], _ :: _, _, h => by simp [ciList] at h
  | _ :: _, [], _, h => by simp [ciList] at h
  | a :: as, c :: cs, b, h => by
    simp only [ciList, Bool.and_eq_true] at h
    simp only [endW]
    rw [ciEq_word a c h.1]
    exact endW_transfer as cs _ h.2

theorem matchCI_ciList_take : ∀ (p s : List Char), matchCI p s = true →
    ciList (s.take p.length) p = true
  | [], s, _ => by simp [ciList]
  | _ :: _, [], h => by simp [matchCI] at h
  | a :: as, c :: cs, h => by
    simp only [matchCI, Bool.and_eq_true] at h
    simp only [List.length_cons, List.take_succ_cons, ciList, Bool.and_eq_true]
    exact ⟨by rw [ciEq_symm]; exact h.1, matchCI_ciList_take as cs h.2⟩

theorem matchCI_of_ciList : ∀ (m p Y : List Char), ciList m p = true →
    matchCI p (m ++ Y) = true
  | [], [], Y, _ => rfl
  | [], _ :: _, _, h => by simp [ciList] at h
  | _ :: _, [], _, h => by simp [ciList] at h
  | a :: as, b :: bs, Y, h => by
    simp only [ciList, Bool.and_eq_true] at h
    simp only [List.cons_append, matchCI, Bool.and_eq_true]
    exact ⟨by rw [ciEq_symm]; exact h.1, matchCI_of_ciList as bs Y h.2⟩

/- headMatch decompositions. -/

theorem headMatch_eq_prefixCmp (pat : List Char) (prevW : Bool) (s : List Char) :
    headMatch pat prevW s = (!prevW && !pat.isEmpty && prefixCmp pat s) := by
  simp [headMatch, prefixCmp, Bool.and_assoc]

theorem headMatch_not_prev (pat : List Char) (prevW : Bool) (s : List Char)
    (h : headMatch pat prevW s = true) : prevW = false := by
  rw [headMatch_eq_prefixCmp] at h
  simp only [Bool.and_eq_true, Bool.not_eq_true'] at h
  exact h.1.1

theorem headMatch_prefixCmp (pat : List Char) (prevW : Bool) (s : List Char)
    (h : headMatch pat prevW s = true) : prefixCmp pat s = true := by
  rw [headMatch_eq_prefixCmp] at h
  simp only [Bool.and_eq_true] at h
  exact h.2

theorem headMatch_intro (pat s : List Char) (hne : pat ≠ []) (hp : prefixCmp pat s = true) :
    headMatch pat false s = true := by
  rw [headMatch_eq_prefixCmp]
  simp only [Bool.not_false, Bool.true_and, Bool.and_eq_true]
  exact ⟨by simpa [List.isEmpty_iff] using hne, hp⟩

theorem headMatch_matchCI (pat : List Char) (prevW : Bool) (s : List Char)
    (h : headMatch pat prevW s = true) : matchCI pat s = true := by
  have := headMatch_prefixCmp pat prevW s h
  simp only [prefixCmp, Bool.and_eq_true] at this
  exact this.1

theorem headMatch_boundary (pat : List Char) (prevW : Bool) (s : List Char)
    (h : headMatch pat prevW s = true) : boundaryOk pat s = true := by
  have := headMatch_prefixCmp pat prevW s h
  simp only [prefixCmp, Bool.and_eq_true] at this
  exact this.2

theorem headMatch_ne_nil (pat : List Char) (prevW : Bool) (s : List Char)
    (h : headMatch pat prevW s = true) : pat ≠ [] := by
  intro he
  subst he
  simp [headMatch] at h

/- Non-word heads are preserved by a substitution pass whose pattern starts
with a word char. -/

theorem reSub_nonWordHead (pat rep : List Char) (hw : headW pat = true) :
    ∀ (s : List Char) (prev : Bool), nonWordHead s = true →
      nonWordHead (reSubWB pat rep prev s) = true
  | [], prev, _ => by rw [reSubWB_nil]; rfl
  | d :: ds, prev, h => by
    have hd : isWordChar d = false := by simpa [nonWordHead] using h
    have hm : headMatch pat prev (d :: ds) = false := by
      cases pat with
      | nil => simp [headW] at hw
      | cons a as =>
        have haw : isWordChar a = true := by simpa [headW] using hw
        have hca : ciEq a d = false := by
          cases hc : ciEq a d
          · rfl
          · rw [ciEq_word a d hc, hd] at haw
            exact absurd haw (by simp)
        simp [headMatch, matchCI, hca]
    rw [reSubWB_cons, if_neg (by simp [hm])]
    simpa [nonWordHead] using hd

/- A successful head match consumes exactly the pattern length. -/

theorem reSub_match_step (pat rep : List Char) (prevW : Bool) (s : List Char)
    (h : headMatch pat prevW s = true) :
    reSubWB pat rep prevW s = rep ++ reSubWB pat rep true (s.drop pat.length) := by
  cases s with
  | nil =>
    exfalso
    cases pat with
    | nil => simp [headMatch] at h
    | cons a as => simp [headMatch, matchCI] at h
  | cons c cs =>
    rw [reSubWB_cons, if_pos h]
    have hne : pat ≠ [] := headMatch_ne_nil pat prevW (c :: cs) h
    have hl : 1 ≤ pat.length := List.length_pos.mpr hne
    have hdrop : (c :: cs).drop pat.length = cs.drop (pat.length - 1) := by
      conv_lhs => rw [show pat.length = (pat.length - 1) + 1 from by omega]
      exact List.drop_succ_cons ..
    rw [hdrop]

theorem boundaryOk_nonWordHead (pat s : List Char) (h : boundaryOk pat s = true) :
    nonWordHead (s.drop pat.length) = true := by
  unfold boundaryOk at h
  cases hd : s.drop pat.length with
  | nil => rfl
  | cons d ds => rw [hd] at h; simpa [nonWordHead] using h

theorem drop_append_len (m Y : List Char) (n : Nat) (h : m.length = n) :
    (m ++ Y).drop n = Y := by
  subst h
  exact List.drop_left m Y

theorem boundaryOk_of_append (pat m Y : List Char) (hlen : m.length = pat.length)
    (hY : nonWordHead Y = true) : boundaryOk pat (m ++ Y) = true := by
  unfold boundaryOk
  rw [drop_append_len m Y pat.length hlen]
  cases Y with
  | nil => rfl
  | cons d ds => simpa [nonWordHead] using hY

/- The skip lemma: a pass walks unchanged through a region where its pattern
cannot start a match. -/

theorem reSub_skip (q r : List Char) :
    ∀ (cont : List Char) (prev : Bool) (X : List Char),
      skipOKb q prev cont = true → nonWordHead X = true →
      reSubWB q r prev (cont ++ X) = cont ++ reSubWB q r (endW prev cont) X
  | [], prev, X, _, _ => by simp [endW]
  | c :: cs, prev, X, hs, hX => by
    simp only [skipOKb, Bool.and_eq_true] at hs
    obtain ⟨hc, hrec⟩ := hs
    have hm : headMatch q prev ((c :: cs) ++ X) = false := by
      cases hp : prev
      · rw [hp] at hc
        simp only [Bool.false_or, Bool.not_eq_true'] at hc
        have hfp := prefixCmp_eq_false q (c :: cs) X hX hc
        cases hh : headMatch q false ((c :: cs) ++ X)
        · rfl
        · rw [headMatch_prefixCmp q false _ hh] at hfp
          exact absurd hfp (by simp)
      · simp [headMatch, hp]
    rw [List.cons_append] at hm ⊢
    rw [reSubWB_cons, if_neg (by simp [hm]),
      reSub_skip q r cs (isWordChar c) X hrec hX]
    rfl

/- Membership facts about tails. -/

theorem self_mem_tails (l : List Char) : l ∈ l.tails := by
  rw [List.mem_tails]

theorem tail_mem_tails {a : Char} {as l : List Char} (h : (a :: as) ∈ l.tails) :
    as ∈ l.tails := by
  rw [List.mem_tails] at h ⊢
  exact List.IsSuffix.trans ⟨[a], rfl⟩ h

/- The match-preservation lemma: under the tails conditions, a pass with
pattern p1 and replacement r1 changes the truth of no bounded prefix match of
any suffix of p2. -/

theorem prefixCmp_reSub (p1 r1 p2 : List Char)
    (hw : headW p1 = true)
    (hT : ∀ q ∈ p2.tails, couldMatchPat q p1 = false ∧ couldMatchPat q r1 = false) :
    ∀ (s : List Char) (w : Bool) (q : List Char), q ∈ p2.tails →
      prefixCmp q (reSubWB p1 r1 w s) = prefixCmp q s
  | [], w, q, hq => by rw [reSubWB_nil]
  | c :: cs, w, q, hq => by
    cases hm : headMatch p1 w (c :: cs) with
    | false =>
      rw [reSubWB_cons, if_neg (by simp [hm])]
      cases q with
      | nil => rw [prefixCmp_nil_left, prefixCmp_nil_left]; rfl
      | cons a as =>
        rw [prefixCmp_cons, prefixCmp_cons,
          prefixCmp_reSub p1 r1 p2 hw hT cs (isWordChar c) as (tail_mem_tails hq)]
    | true =>
      have hci : ciList ((c :: cs).take p1.length) p1 = true :=
        matchCI_ciList_take p1 (c :: cs) (headMatch_matchCI p1 w _ hm)
      have hrest : nonWordHead ((c :: cs).drop p1.length) = true :=
        boundaryOk_nonWordHead p1 (c :: cs) (headMatch_boundary p1 w _ hm)
      have hR : prefixCmp q (c :: cs) = false := by
        conv_lhs => rw [← List.take_append_drop p1.length (c :: cs)]
        exact prefixCmp_eq_false q _ _ hrest
          (by rw [couldMatch_transfer q _ p1 hci]; exact (hT q hq).1)
      rw [reSub_match_step p1 r1 w _ hm, hR]
      exact prefixCmp_eq_false q r1 _
        (reSub_nonWordHead p1 r1 hw _ true hrest) (hT q hq).2

/- The pairwise commutation of two substitution passes under the decidable
independence conditions. -/

theorem sub_comm_aux (p1 r1 p2 r2 : List Char)
    (hne1 : p1 ≠ []) (hne2 : p2 ≠ [])
    (hh1 : headW p1 = true) (hh2 : headW p2 = true)
    (he1 : endW false p1 = true) (he2 : endW false p2 = true)
    (her1 : endW false r1 = true) (her2 : endW false r2 = true)
    (hT2 : ∀ q ∈ p2.tails, couldMatchPat q p1 = false ∧ couldMatchPat q r1 = false)
    (hT1 : ∀ q ∈ p1.tails, couldMatchPat q p2 = false ∧ couldMatchPat q r2 = false)
    (hsk21 : skipOKb p2 false p1 = true) (hskr1 : skipOKb p2 false r1 = true)
    (hsk12 : skipOKb p1 false p2 = true) (hskr2 : skipOKb p1 false r2 = true) :
    ∀ (s : List Char) (prev : Bool),
      reSubWB p2 r2 prev (reSubWB p1 r1 prev s) =
        reSubWB p1 r1 prev (reSubWB p2 r2 prev s)
  | [], prev => by simp [reSubWB_nil]
  | c :: cs, prev => by
    cases hm1 : headMatch p1 prev (c :: cs) with
    | true =>
      cases hm2 : headMatch p2 prev (c :: cs) with
      | true =>
        exfalso
        have hci : ciList ((c :: cs).take p1.length) p1 = true :=
          matchCI_ciList_take p1 _ (headMatch_matchCI _ _ _ hm1)
        have hrest : nonWordHead ((c :: cs).drop p1.length) = true :=
          boundaryOk_nonWordHead p1 _ (headMatch_boundary _ _ _ hm1)
        have hp2 : prefixCmp p2 (c :: cs) = true := headMatch_prefixCmp _ _ _ hm2
        rw [← List.take_append_drop p1.length (c :: cs)] at hp2
        have hcm := couldMatch_of_prefixCmp p2 _ _ hrest hp2
        rw [couldMatch_transfer p2 _ p1 hci, (hT2 p2 (self_mem_tails p2)).1] at hcm
        exact absurd hcm (by simp)
      | false =>
        have hprev : prev = false := headMatch_not_prev _ _ _ hm1
        subst hprev
        have hci : ciList ((c :: cs).take p1.length) p1 = true :=
          matchCI_ciList_take p1 _ (headMatch_matchCI _ _ _ hm1)
        have hlen : ((c :: cs).take p1.length).length = p1.length := ciList_length _ _ hci
        have hrest : nonWordHead ((c :: cs).drop p1.length) = true :=
          boundaryOk_nonWordHead p1 _ (headMatch_boundary _ _ _ hm1)
        have hnw1 : nonWordHead (reSubWB p1 r1 true ((c :: cs).drop p1.length)) = true :=
          reSub_nonWordHead p1 r1 hh1 _ true hrest
        have hnw2 : nonWordHead (reSubWB p2 r2 true ((c :: cs).drop p1.length)) = true :=
          reSub_nonWordHead p2 r2 hh2 _ true hrest
        have hLHS : reSubWB p2 r2 false (reSubWB p1 r1 false (c :: cs)) =
            r1 ++ reSubWB p2 r2 true (reSubWB p1 r1 true ((c :: cs).drop p1.length)) := by
          rw [reSub_match_step p1 r1 false _ hm1,
            reSub_skip p2 r2 r1 false _ hskr1 hnw1, her1]
        have hskm : skipOKb p2 false ((c :: cs).take p1.length) = true := by
          rw [skipOK_transfer p2 _ p1 false hci]; exact hsk21
        have hem : endW false ((c :: cs).take p1.length) = true := by
          rw [endW_transfer _ p1 false hci]; exact he1
        have hstep2 : reSubWB p2 r2 false (c :: cs) =
            (c :: cs).take p1.length ++ reSubWB p2 r2 true ((c :: cs).drop p1.length) := by
          conv_lhs => rw [← List.take_append_drop p1.length (c :: cs)]
          rw [reSub_skip p2 r2 _ false _ hskm hrest, hem]
        have hpm : prefixCmp p1 ((c :: cs).take p1.length ++
            reSubWB p2 r2 true ((c :: cs).drop p1.length)) = true := by
          simp only [prefixCmp, Bool.and_eq_true]
          exact ⟨matchCI_of_ciList _ p1 _ hci, boundaryOk_of_append p1 _ _ hlen hnw2⟩
        have hRHS : reSubWB p1 r1 false (reSubWB p2 r2 false (c :: cs)) =
            r1 ++ reSubWB p1 r1 true (reSubWB p2 r2 true ((c :: cs).drop p1.length)) := by
          rw [hstep2, reSub_match_step p1 r1 false _ (headMatch_intro p1 _ hne1 hpm),
            drop_append_len _ _ p1.length hlen]
        rw [hLHS, hRHS,
          sub_comm_aux p1 r1 p2 r2 hne1 hne2 hh1 hh2 he1 he2 her1 her2 hT2 hT1
            hsk21 hskr1 hsk12 hskr2 ((c :: cs).drop p1.length) true]
    | false =>
      cases hm2 : headMatch p2 prev (c :: cs) with
      | true =>
        have hprev : prev = false := headMatch_not_prev _ _ _ hm2
        subst hprev
        have hci : ciList ((c :: cs).take p2.length) p2 = true :=
          matchCI_ciList_take p2 _ (headMatch_matchCI _ _ _ hm2)
        have hlen : ((c :: cs).take p2.length).length = p2.length := ciList_length _ _ hci
        have hrest : nonWordHead ((c :: cs).drop p2.length) = true :=
          boundaryOk_nonWordHead p2 _ (headMatch_boundary _ _ _ hm2)
        have hnw1 : nonWordHead (reSubWB p1 r1 true ((c :: cs).drop p2.length)) = true :=
          reSub_nonWordHead p1 r1 hh1 _ true hrest
        have hnw2 : nonWordHead (reSubWB p2 r2 true ((c :: cs).drop p2.length)) = true :=
          reSub_nonWordHead p2 r2 hh2 _ true hrest
        have hRHS : reSubWB p1 r1 false (reSubWB p2 r2 false (c :: cs)) =
            r2 ++ reSubWB p1 r1 true (reSubWB p2 r2 true ((c :: cs).drop p2.length)) := by
          rw [reSub_match_step p2 r2 false _ hm2,
            reSub_skip p1 r1 r2 false _ hskr2 hnw2, her2]
        have hskm : skipOKb p1 false ((c :: cs).take p2.length) = true := by
          rw [skipOK_transfer p1 _ p2 false hci]; exact hsk12
        have hem : endW false ((c :: cs).take p2.length) = true := by
          rw [endW_transfer _ p2 false hci]; exact he2
        have hstep1 : reSubWB p1 r1 false (c :: cs) =
            (c :: cs).take p2.length ++ reSubWB p1 r1 true ((c :: cs).drop p2.length) := by
          conv_lhs => rw [← List.take_append_drop p2.length (c :: cs)]
          rw [reSub_skip p1 r1 _ false _ hskm hrest, hem]
        have hpm : prefixCmp p2 ((c :: cs).take p2.length ++
            reSubWB p1 r1 true ((c :: cs).drop p2.length)) = true := by
          simp only [prefixCmp, Bool.and_eq_true]
          exact ⟨matchCI_of_ciList _ p2 _ hci, boundaryOk_of_append p2 _ _ hlen hnw1⟩
        have hLHS : reSubWB p2 r2 false (reSubWB p1 r1 false (c :: cs)) =
            r2 ++ reSubWB p2 r2 true (reSubWB p1 r1 true ((c :: cs).drop p2.length)) := by
          rw [hstep1, reSub_match_step p2 r2 false _ (headMatch_intro p2 _ hne2 hpm),
            drop_append_len _ _ p2.length hlen]
        rw [hLHS, hRHS,
          sub_comm_aux p1 r1 p2 r2 hne1 hne2 hh1 hh2 he1 he2 her1 her2 hT2 hT1
            hsk21 hskr1 hsk12 hskr2 ((c :: cs).drop p2.length) true]
      | false =>
        have hstep1 : reSubWB p1 r1 prev (c :: cs) =
            c :: reSubWB p1 r1 (isWordChar c) cs := by
          rw [reSubWB_cons, if_neg (by simp [hm1])]
        have hstep2 : reSubWB p2 r2 prev (c :: cs) =
            c :: reSubWB p2 r2 (isWordChar c) cs := by
          rw [reSubWB_cons, if_neg (by simp [hm2])]
        have hL : headMatch p2 prev (c :: reSubWB p1 r1 (isWordChar c) cs) = false := by
          rw [show (c :: reSubWB p1 r1 (isWordChar c) cs) =
              reSubWB p1 r1 prev (c :: cs) from hstep1.symm,
            headMatch_eq_prefixCmp,
            prefixCmp_reSub p1 r1 p2 hh1 hT2 (c :: cs) prev p2 (self_mem_tails p2),
            ← headMatch_eq_prefixCmp]
          exact hm2
        have hR : headMatch p1 prev (c :: reSubWB p2 r2 (isWordChar c) cs) = false := by
          rw [show (c :: reSubWB p2 r2 (isWordChar c) cs) =
              reSubWB p2 r2 prev (c :: cs) from hstep2.symm,
            headMatch_eq_prefixCmp,
            prefixCmp_reSub p2 r2 p1 hh2 hT1 (c :: cs) prev p1 (self_mem_tails p1),
            ← headMatch_eq_prefixCmp]
          exact hm1
        rw [hstep1, hstep2, reSubWB_cons, if_neg (by simp [hL]),
          reSubWB_cons, if_neg (by simp [hR]),
          sub_comm_aux p1 r1 p2 r2 hne1 hne2 hh1 hh2 he1 he2 her1 her2 hT2 hT1
            hsk21 hskr1 hsk12 hskr2 cs (isWordChar c)]
  termination_by s _ => s.length
  decreasing_by
  all_goals
    have h1 : 1 ≤ p1.length := List.length_pos.mpr hne1
    have h2 : 1 ≤ p2.length := List.length_pos.mpr hne2
    simp only [List.length_drop, List.length_cons]
    omega

theorem sub_comm (p1 r1 p2 r2 : List Char) (h : indepPair p1 r1 p2 r2 = true)
    (s : List Char) (prev : Bool) :
    reSubWB p2 r2 prev (reSubWB p1 r1 prev s) =
      reSubWB p1 r1 prev (reSubWB p2 r2 prev s) := by
  have h' := h
  simp only [indepPair, Bool.and_eq_true] at h'
  obtain ⟨⟨⟨⟨⟨⟨⟨⟨⟨⟨⟨⟨⟨⟨⟨⟨⟨hne1, hne2⟩, hr1⟩, hr2⟩, hh1⟩, hh2⟩, hhr1⟩, hhr2⟩,
    he1⟩, he2⟩, her1⟩, her2⟩, hT2⟩, hT1⟩, hsk21⟩, hskr1⟩, hsk12⟩, hskr2⟩ := h'
  refine sub_comm_aux p1 r1 p2 r2 ?_ ?_ hh1 hh2 he1 he2 her1 her2 ?_ ?_
    hsk21 hskr1 hsk12 hskr2 s prev
  · intro he
    rw [he] at hne1
    simp at hne1
  · intro he
    rw [he] at hne2
    simp at hne2
  · intro q hq
    have hx := List.all_eq_true.mp hT2 q hq
    simp only [Bool.and_eq_true, Bool.not_eq_true'] at hx
    exact hx
  · intro q hq
    have hx := List.all_eq_true.mp hT1 q hq
    simp only [Bool.and_eq_true, Bool.not_eq_true'] at hx
    exact hx

theorem applySub_comm (p1 r1 p2 r2 : String)
    (h : indepPair p1.toList r1.toList p2.toList r2.toList = true) (x : String) :
    applySub p2 r2 (applySub p1 r1 x) = applySub p1 r1 (applySub p2 r2 x) := by
  refine congrArg String.mk ?_
  show reSubWB p2.toList r2.toList false (reSubWB p1.toList r1.toList false x.toList) =
    reSubWB p1.toList r1.toList false (reSubWB p2.toList r2.toList false x.toList)
  exact sub_comm _ _ _ _ h x.toList false

theorem fold_sub_commute : ∀ (L : List (String × String)) (p r : String),
    (∀ q ∈ L, ∀ x, applySub p r (applySub q.1 q.2 x) = applySub q.1 q.2 (applySub p r x)) →
    ∀ s, applySub p r (L.foldl (fun t q => applySub q.1 q.2 t) s) =
      L.foldl (fun t q => applySub q.1 q.2 t) (applySub p r s)
  | [], _, _, _, _ => rfl
  | q0 :: L, p, r, hcomm, s => by
    simp only [List.foldl_cons]
    rw [fold_sub_commute L p r (fun q hq => hcomm q (by simp [hq]))
        (applySub q0.1 q0.2 s),
      hcomm q0 (by simp)]

theorem passes_commute : ∀ (C I : List (String × String)),
    (∀ p ∈ C, ∀ q ∈ I, ∀ x,
      applySub p.1 p.2 (applySub q.1 q.2 x) = applySub q.1 q.2 (applySub p.1 p.2 x)) →
    ∀ s, I.foldl (fun t q => applySub q.1 q.2 t) (C.foldl (fun t q => applySub q.1 q.2 t) s) =
      C.foldl (fun t q => applySub q.1 q.2 t) (I.foldl (fun t q => applySub q.1 q.2 t) s)
  | [], _, _, _ => rfl
  | p0 :: C, I, hcomm, s => by
    simp only [List.foldl_cons]
    rw [passes_commute C I (fun p hp => hcomm p (by simp [hp])) (applySub p0.1 p0.2 s),
      ← fold_sub_commute I p0.1 p0.2 (hcomm p0 (by simp)) s]

/-- C8: the contraction pass and the idiom pass commute on every input
string: no suffix of any key of one table can begin a bounded match inside
any key or replacement of the other table (the word stocks of the two tables
are disjoint and every contraction replacement carries an apostrophe), so the
two passes touch disjoint parts of the text. -/
theorem c8_contractions_idioms_commute (s : String) :
    apply_idioms (apply_contractions s contractions) idioms =
      apply_contractions (apply_idioms s idioms) contractions := by
  have hpair : ∀ p ∈ contractions, ∀ q ∈ idioms,
      indepPair q.1.toList q.2.toList p.1.toList p.2.toList = true := by decide
  unfold apply_idioms apply_contractions
  exact passes_commute contractions idioms
    (fun p hp q hq x => applySub_comm q.1 q.2 p.1 p.2 (hpair p hp q hq) x) s
